import Mathlib

/-!
# Verification of pyShapelets `util.py`

A shallow embedding of the metric library in `pyshapelets/util.py`.
Numeric sequences (numpy arrays of floats) are modelled as functions
`ℕ → ℝ` together with an explicit length; arithmetic is exact real
arithmetic, with `Real.sqrt` for `np.sqrt` / `np.std` / `np.linalg.norm`.
Division by zero follows Lean's convention `a / 0 = 0` (the floating-point
NaN/Inf behaviour itself is not representable here).
-/

namespace PyShapelets

noncomputable section

open Finset

/-- `np.mean(x)` over the first `n` entries: `(∑ x i) / n`. -/
def mean (n : ℕ) (x : ℕ → ℝ) : ℝ := (∑ i ∈ range n, x i) / n

/-- The population variance used by `np.std` (ddof = 0):
`(∑ (x i - mean)^2) / n`. -/
def var (n : ℕ) (x : ℕ → ℝ) : ℝ := (∑ i ∈ range n, (x i - mean n x) ^ 2) / n

/-- `np.std(x)`: square root of the population variance. -/
def std (n : ℕ) (x : ℕ → ℝ) : ℝ := Real.sqrt (var n x)

/-- `z_norm(x) = (x - np.mean(x)) / np.std(x)`, element-wise
(source `util.py` lines 5-10). -/
def z_norm (n : ℕ) (x : ℕ → ℝ) : ℕ → ℝ :=
  fun i => (x i - mean n x) / std n x

/-- `norm_euclidean_distance(x, y) = 1/np.sqrt(len(x)) * np.linalg.norm(x - y)`
(source `util.py` lines 13-15); `np.linalg.norm` is the Euclidean 2-norm. -/
def norm_euclidean_distance (n : ℕ) (x y : ℕ → ℝ) : ℝ :=
  1 / Real.sqrt n * Real.sqrt (∑ i ∈ range n, (x i - y i) ^ 2)

/-- `pearson(x, y) = (np.sum(x*y) - m*mu_x*mu_y) / (m*sigma_x*sigma_y)`
(source `util.py` lines 18-26). -/
def pearson (n : ℕ) (x y : ℕ → ℝ) : ℝ :=
  ((∑ i ∈ range n, x i * y i) - n * mean n x * mean n y) /
    (n * std n x * std n y)

/-- `pearson_dist(x, y) = np.sqrt(2 * (1 - pearson(x, y)))`
(source `util.py` lines 66-75). -/
def pearson_dist (n : ℕ) (x y : ℕ → ℝ) : ℝ :=
  Real.sqrt (2 * (1 - pearson n x y))

/-- The term added to `M[u+1, v+1]` in the loop body of
`calculate_metric_arrays` (source `util.py` lines 57-61):
`t = abs(u-v); if u > v: x[v+t]*y[v] else: x[u]*y[u+t]`. -/
def prodTerm (x y : ℕ → ℝ) (u v : ℕ) : ℝ :=
  if v < u then x (v + ((u : ℤ) - (v : ℤ)).natAbs) * y v
  else x u * y (u + ((v : ℤ) - (u : ℤ)).natAbs)

/-- A single assignment `M[u+1, v+1] = M[u, v] + <prodTerm>` on the matrix,
modelled as a pointwise update of the matrix-as-function. -/
def writeM (x y : ℕ → ℝ) (u v : ℕ) (M : ℕ → ℕ → ℝ) : ℕ → ℕ → ℝ :=
  fun i j => if i = u + 1 ∧ j = v + 1 then M u v + prodTerm x y u v else M i j

/-- The nested loop of `calculate_metric_arrays`
(`for u in range(len(x)): for v in range(len(y)): ...`) starting from the
all-zero `(n+1)×(m+1)` matrix `np.zeros`. -/
def buildM (n m : ℕ) (x y : ℕ → ℝ) : ℕ → ℕ → ℝ :=
  (List.range n).foldl
    (fun M u => (List.range m).foldl (fun M v => writeM x y u v M) M)
    (fun _ _ => 0)

/-- Closed-form companion of `buildM` on the written region: entry `(i, j)`
accumulates `prodTerm` down the diagonal. Used only to state and prove the
characterization of the imperative loop. -/
def Mclosed (x y : ℕ → ℝ) : ℕ → ℕ → ℝ
  | 0, _ => 0
  | _ + 1, 0 => 0
  | u + 1, v + 1 => Mclosed x y u v + prodTerm x y u v

/-- The five statistic arrays returned by `calculate_metric_arrays`. -/
structure MetricArrays where
  S_x : ℕ → ℝ
  S_x2 : ℕ → ℝ
  S_y : ℕ → ℝ
  S_y2 : ℕ → ℝ
  M : ℕ → ℕ → ℝ

/-- `calculate_metric_arrays(x, y)` (source `util.py` lines 40-63):
`S_x = np.append([0], np.cumsum(x))` is the prefix-sum array
(`S_x[i] = x[0] + ... + x[i-1]`), `S_x2` the prefix sums of squares,
likewise for `y`; `M` is built by the nested loop `buildM`. -/
def calculate_metric_arrays (n m : ℕ) (x y : ℕ → ℝ) : MetricArrays where
  S_x := fun i => ∑ j ∈ range i, x j
  S_x2 := fun i => ∑ j ∈ range i, x j ^ 2
  S_y := fun i => ∑ j ∈ range i, y j
  S_y2 := fun i => ∑ j ∈ range i, y j ^ 2
  M := buildM n m x y

/-- `pearson_metrics(u, v, l, S_x, S_x2, S_y, S_y2, M)`
(source `util.py` lines 29-37). -/
def pearson_metrics (u v l : ℕ) (S_x S_x2 S_y S_y2 : ℕ → ℝ)
    (M : ℕ → ℕ → ℝ) : ℝ :=
  let mu_x := (S_x (u + l) - S_x u) / l
  let mu_y := (S_y (v + l) - S_y v) / l
  let sigma_x := Real.sqrt ((S_x2 (u + l) - S_x2 u) / l - mu_x ^ 2)
  let sigma_y := Real.sqrt ((S_y2 (v + l) - S_y2 v) / l - mu_y ^ 2)
  let xy := M (u + l) (v + l) - M u v
  (xy - l * mu_x * mu_y) / (l * sigma_x * sigma_y)

/-- `pearson_dist_metrics(u, v, l, ...)` (source `util.py` lines 78-79). -/
def pearson_dist_metrics (u v l : ℕ) (S_x S_x2 S_y S_y2 : ℕ → ℝ)
    (M : ℕ → ℕ → ℝ) : ℝ :=
  Real.sqrt (2 * (1 - pearson_metrics u v l S_x S_x2 S_y S_y2 M))

/-! ## Characterization of the imperative construction of `M` -/

/-- Effect of the inner loop `for v in L: M[u+1, v+1] = M[u, v] + ...` on an
arbitrary entry: entries in row `u+1` at columns `v+1` for `v ∈ L` get their
final value (the reads are from row `u`, which the loop never writes);
everything else is untouched. -/
lemma inner_foldl_apply (x y : ℕ → ℝ) (u : ℕ) (L : List ℕ)
    (M : ℕ → ℕ → ℝ) (i j : ℕ) :
    (L.foldl (fun M v => writeM x y u v M) M) i j =
      if i = u + 1 ∧ ∃ v ∈ L, j = v + 1 then
        M u (j - 1) + prodTerm x y u (j - 1)
      else M i j := by
  induction L generalizing M with
  | nil => simp
  | cons a L ih =>
    rw [List.foldl_cons, ih]
    by_cases h1 : i = u + 1 ∧ ∃ v ∈ L, j = v + 1
    · rw [if_pos h1]
      have cond2 : i = u + 1 ∧ ∃ v ∈ a :: L, j = v + 1 :=
        ⟨h1.1, by obtain ⟨v, hv, hj⟩ := h1.2; exact ⟨v, List.mem_cons_of_mem a hv, hj⟩⟩
      rw [if_pos cond2]
      simp [writeM]
    · rw [if_neg h1]
      by_cases h2 : i = u + 1 ∧ j = a + 1
      · have hw : writeM x y u a M i j = M u a + prodTerm x y u a := by
          simp [writeM, h2.1, h2.2]
        rw [hw, if_pos ⟨h2.1, a, List.mem_cons_self a L, h2.2⟩, h2.2]
        simp
      · have hw : writeM x y u a M i j = M i j := by
          simp only [writeM, if_neg h2]
        rw [hw]
        have cond : ¬(i = u + 1 ∧ ∃ v ∈ a :: L, j = v + 1) := by
          rintro ⟨hi, v, hv, hj⟩
          rcases List.mem_cons.mp hv with rfl | hvL
          · exact h2 ⟨hi, hj⟩
          · exact h1 ⟨hi, v, hvL, hj⟩
        rw [if_neg cond]

/-- The matrix produced by the nested loop agrees with the diagonal
recursion `Mclosed` on the `(n+1)×(m+1)` region that the loop writes,
and is `0` outside it. -/
lemma buildM_apply (n m : ℕ) (x y : ℕ → ℝ) :
    ∀ i j, buildM n m x y i j =
      if i ≤ n ∧ j ≤ m then Mclosed x y i j else 0 := by
  unfold buildM
  induction n with
  | zero =>
    intro i j
    simp only [List.range_zero, List.foldl_nil]
    by_cases h : i ≤ 0 ∧ j ≤ m
    · have hi : i = 0 := Nat.le_zero.mp h.1
      rw [if_pos h, hi]
      simp [Mclosed]
    · rw [if_neg h]
  | succ k ih =>
    intro i j
    rw [List.range_succ, List.foldl_append, List.foldl_cons, List.foldl_nil]
    rw [inner_foldl_apply]
    by_cases h : i = k + 1 ∧ ∃ v ∈ List.range m, j = v + 1
    · rw [if_pos h]
      obtain ⟨hi, v, hv, hj⟩ := h
      have hvm : v < m := List.mem_range.mp hv
      subst hi hj
      have hsub : v + 1 - 1 = v := rfl
      rw [hsub, ih k v]
      rw [if_pos ⟨le_refl k, Nat.le_of_lt hvm⟩,
        if_pos ⟨le_refl (k + 1), hvm⟩]
      rfl
    · rw [if_neg h, ih]
      by_cases h1 : i ≤ k ∧ j ≤ m
      · rw [if_pos h1, if_pos ⟨Nat.le_succ_of_le h1.1, h1.2⟩]
      · rw [if_neg h1]
        by_cases h2 : i ≤ k + 1 ∧ j ≤ m
        · rw [if_pos h2]
          have hi : i = k + 1 := by omega
          have hj : j = 0 := by
            by_contra hj0
            exact h ⟨hi, j - 1, List.mem_range.mpr (by omega), by omega⟩
          rw [hi, hj]
          simp [Mclosed]
        · rw [if_neg h2]

/-- Both branches of the loop body add the same product `x[u] * y[v]`:
when `u > v`, `t = u - v` and `x[v + t] = x[u]`; otherwise `t = v - u`
and `y[u + t] = y[v]`. -/
lemma prodTerm_eq (x y : ℕ → ℝ) (u v : ℕ) : prodTerm x y u v = x u * y v := by
  unfold prodTerm
  by_cases h : v < u
  · rw [if_pos h]
    have harg : v + ((u : ℤ) - (v : ℤ)).natAbs = u := by omega
    rw [harg]
  · rw [if_neg h]
    have harg : u + ((v : ℤ) - (u : ℤ)).natAbs = v := by omega
    rw [harg]

/-- The diagonal recursion steps by `x u * y v`. -/
lemma Mclosed_succ (x y : ℕ → ℝ) (u v : ℕ) :
    Mclosed x y (u + 1) (v + 1) = Mclosed x y u v + x u * y v := by
  rw [Mclosed, prodTerm_eq]

/-- Telescoping along a diagonal of length `l`. -/
lemma Mclosed_window (x y : ℕ → ℝ) (u v l : ℕ) :
    Mclosed x y (u + l) (v + l) - Mclosed x y u v =
      ∑ i ∈ range l, x (u + i) * y (v + i) := by
  induction l with
  | zero => simp
  | succ l ih =>
    rw [Finset.sum_range_succ, ← ih,
      show u + (l + 1) = (u + l) + 1 from rfl,
      show v + (l + 1) = (v + l) + 1 from rfl,
      Mclosed_succ]
    ring

/-- Window sums out of the built `M`: for any in-range query
`(u, v, l)`, `M[u+l, v+l] - M[u, v]` is the sum of pointwise products
of the two windows. -/
lemma buildM_window (n m : ℕ) (x y : ℕ → ℝ) (u v l : ℕ)
    (hu : u + l ≤ n) (hv : v + l ≤ m) :
    buildM n m x y (u + l) (v + l) - buildM n m x y u v =
      ∑ i ∈ range l, x (u + i) * y (v + i) := by
  rw [buildM_apply, buildM_apply, if_pos ⟨hu, hv⟩,
    if_pos ⟨by omega, by omega⟩, Mclosed_window]

/-! ## Mean / variance algebra -/

lemma sum_eq_mul_mean (n : ℕ) (x : ℕ → ℝ) :
    (∑ i ∈ range n, x i) = n * mean n x := by
  by_cases hn : n = 0
  · subst hn; simp [mean]
  · have hn' : (n : ℝ) ≠ 0 := Nat.cast_ne_zero.mpr hn
    field_simp [mean]

lemma sum_sq_dev (n : ℕ) (x : ℕ → ℝ) :
    ∑ i ∈ range n, (x i - mean n x) ^ 2 =
      (∑ i ∈ range n, x i ^ 2) - n * mean n x ^ 2 := by
  have h : ∀ i ∈ range n, (x i - mean n x) ^ 2 =
      x i ^ 2 - 2 * mean n x * x i + mean n x ^ 2 := by
    intro i _; ring
  rw [Finset.sum_congr rfl h, Finset.sum_add_distrib, Finset.sum_sub_distrib,
    ← Finset.mul_sum, Finset.sum_const, card_range, nsmul_eq_mul,
    sum_eq_mul_mean n x]
  ring

lemma sum_dev_mul (n : ℕ) (x y : ℕ → ℝ) :
    ∑ i ∈ range n, (x i - mean n x) * (y i - mean n y) =
      (∑ i ∈ range n, x i * y i) - n * mean n x * mean n y := by
  have h : ∀ i ∈ range n, (x i - mean n x) * (y i - mean n y) =
      x i * y i - mean n x * y i - mean n y * x i + mean n x * mean n y := by
    intro i _; ring
  rw [Finset.sum_congr rfl h, Finset.sum_add_distrib, Finset.sum_sub_distrib,
    Finset.sum_sub_distrib, ← Finset.mul_sum, ← Finset.mul_sum,
    Finset.sum_const, card_range, nsmul_eq_mul, sum_eq_mul_mean n x,
    sum_eq_mul_mean n y]
  ring

lemma var_eq (n : ℕ) (x : ℕ → ℝ) :
    var n x = (∑ i ∈ range n, x i ^ 2) / n - mean n x ^ 2 := by
  by_cases hn : n = 0
  · subst hn; simp [var, mean]
  · have hn' : (n : ℝ) ≠ 0 := Nat.cast_ne_zero.mpr hn
    rw [var, sum_sq_dev, sub_div, mul_comm, mul_div_assoc, div_self hn',
      mul_one]

lemma var_nonneg (n : ℕ) (x : ℕ → ℝ) : 0 ≤ var n x :=
  div_nonneg (Finset.sum_nonneg fun _ _ => sq_nonneg _) (Nat.cast_nonneg n)

lemma sq_std (n : ℕ) (x : ℕ → ℝ) : std n x ^ 2 = var n x :=
  Real.sq_sqrt (var_nonneg n x)

lemma std_nonneg (n : ℕ) (x : ℕ → ℝ) : 0 ≤ std n x := Real.sqrt_nonneg _

lemma var_pos_of_std_ne_zero (n : ℕ) (x : ℕ → ℝ) (h : std n x ≠ 0) :
    0 < var n x :=
  Real.sqrt_ne_zero'.mp h

lemma std_pos_of_ne_zero (n : ℕ) (x : ℕ → ℝ) (h : std n x ≠ 0) :
    0 < std n x :=
  lt_of_le_of_ne (std_nonneg n x) (Ne.symm h)

lemma cast_ne_zero_of_std_ne_zero (n : ℕ) (x : ℕ → ℝ) (h : std n x ≠ 0) :
    (n : ℝ) ≠ 0 := by
  intro hn
  apply h
  have hn0 : n = 0 := Nat.cast_eq_zero.mp hn
  subst hn0
  simp [std, var]

lemma sum_sq_dev_eq_n_var (n : ℕ) (x : ℕ → ℝ) (hn : (n : ℝ) ≠ 0) :
    ∑ i ∈ range n, (x i - mean n x) ^ 2 = n * var n x := by
  rw [var]
  field_simp

/-! ## Window (subsequence) sums -/

lemma window_sum (x : ℕ → ℝ) (u l : ℕ) :
    (∑ j ∈ range (u + l), x j) - ∑ j ∈ range u, x j =
      ∑ i ∈ range l, x (u + i) := by
  rw [Finset.sum_range_add]
  ring

/-! ## z-normalization algebra -/

lemma sum_znorm (n : ℕ) (x : ℕ → ℝ) :
    ∑ i ∈ range n, z_norm n x i = 0 := by
  simp only [z_norm, div_eq_mul_inv, ← Finset.sum_mul]
  rw [Finset.sum_sub_distrib, Finset.sum_const, card_range, nsmul_eq_mul,
    sum_eq_mul_mean]
  ring

lemma sum_znorm_sq (n : ℕ) (x : ℕ → ℝ) (h : std n x ≠ 0) :
    ∑ i ∈ range n, z_norm n x i ^ 2 = n := by
  have hv : 0 < var n x := var_pos_of_std_ne_zero n x h
  have hn : (n : ℝ) ≠ 0 := cast_ne_zero_of_std_ne_zero n x h
  have h1 : ∑ i ∈ range n, z_norm n x i ^ 2 =
      (∑ i ∈ range n, (x i - mean n x) ^ 2) / std n x ^ 2 := by
    simp only [z_norm, div_pow, ← Finset.sum_div]
  rw [h1, sq_std, sum_sq_dev_eq_n_var n x hn,
    mul_div_assoc, div_self (ne_of_gt hv), mul_one]

lemma sum_znorm_mul (n : ℕ) (x y : ℕ → ℝ)
    (hx : std n x ≠ 0) (hy : std n y ≠ 0) :
    ∑ i ∈ range n, z_norm n x i * z_norm n y i = n * pearson n x y := by
  have hn : (n : ℝ) ≠ 0 := cast_ne_zero_of_std_ne_zero n x hx
  have h1 : ∑ i ∈ range n, z_norm n x i * z_norm n y i =
      (∑ i ∈ range n, (x i - mean n x) * (y i - mean n y)) /
        (std n x * std n y) := by
    simp only [z_norm, div_mul_div_comm, ← Finset.sum_div]
  rw [h1, sum_dev_mul, pearson]
  field_simp
  ring

lemma Mclosed_zero_left (x y : ℕ → ℝ) (j : ℕ) : Mclosed x y 0 j = 0 := by
  simp [Mclosed]

lemma Mclosed_zero_right (x y : ℕ → ℝ) (i : ℕ) : Mclosed x y i 0 = 0 := by
  cases i <;> simp [Mclosed]

/-- The `pearson_metrics` value computed from the statistic arrays equals
the direct `pearson` value on the raw windows `x[u:u+l]`, `y[v:v+l]`. -/
lemma pearson_metrics_eq (n m u v l : ℕ) (x y : ℕ → ℝ)
    (hu : u + l ≤ n) (hv : v + l ≤ m) :
    pearson_metrics u v l (fun i => ∑ j ∈ range i, x j)
      (fun i => ∑ j ∈ range i, x j ^ 2) (fun i => ∑ j ∈ range i, y j)
      (fun i => ∑ j ∈ range i, y j ^ 2) (buildM n m x y) =
      pearson l (fun i => x (u + i)) (fun i => y (v + i)) := by
  have Hx : (∑ j ∈ range (u + l), x j) - ∑ j ∈ range u, x j =
      ∑ i ∈ range l, x (u + i) := window_sum x u l
  have Hx2 : (∑ j ∈ range (u + l), x j ^ 2) - ∑ j ∈ range u, x j ^ 2 =
      ∑ i ∈ range l, x (u + i) ^ 2 := window_sum (fun j => x j ^ 2) u l
  have Hy : (∑ j ∈ range (v + l), y j) - ∑ j ∈ range v, y j =
      ∑ i ∈ range l, y (v + i) := window_sum y v l
  have Hy2 : (∑ j ∈ range (v + l), y j ^ 2) - ∑ j ∈ range v, y j ^ 2 =
      ∑ i ∈ range l, y (v + i) ^ 2 := window_sum (fun j => y j ^ 2) v l
  have HM := buildM_window n m x y u v l hu hv
  simp only [pearson_metrics, pearson, std, mean]
  rw [var_eq, var_eq]
  simp only [mean]
  rw [Hx, Hx2, Hy, Hy2, HM]

/-! ## Claim theorems -/

/-- C1: for every pair of sequences `x` (length `n`), `y` (length `m`), the
five arrays built by `calculate_metric_arrays`, and every in-range query
`(u, v, l)` with `u + l ≤ n` and `v + l ≤ m`, `pearson_metrics` equals
`pearson` on the raw windows `x[u:u+l]`, `y[v:v+l]`, and likewise
`pearson_dist_metrics` equals `pearson_dist` (exactly, in exact real
arithmetic). -/
theorem C1_metrics_refine_direct (n m u v l : ℕ) (x y : ℕ → ℝ)
    (hu : u + l ≤ n) (hv : v + l ≤ m) :
    pearson_metrics u v l (calculate_metric_arrays n m x y).S_x
        (calculate_metric_arrays n m x y).S_x2
        (calculate_metric_arrays n m x y).S_y
        (calculate_metric_arrays n m x y).S_y2
        (calculate_metric_arrays n m x y).M =
      pearson l (fun i => x (u + i)) (fun i => y (v + i)) ∧
    pearson_dist_metrics u v l (calculate_metric_arrays n m x y).S_x
        (calculate_metric_arrays n m x y).S_x2
        (calculate_metric_arrays n m x y).S_y
        (calculate_metric_arrays n m x y).S_y2
        (calculate_metric_arrays n m x y).M =
      pearson_dist l (fun i => x (u + i)) (fun i => y (v + i)) := by
  simp only [calculate_metric_arrays]
  have h := pearson_metrics_eq n m u v l x y hu hv
  refine ⟨h, ?_⟩
  simp only [pearson_dist_metrics, pearson_dist]
  rw [h]

/-- Witness for C1 at `n = m = 1`, `u = v = 0`, `l = 1`, `x = y = [1]`. -/
theorem C1_metrics_refine_direct_witness :
    0 + 1 ≤ 1 ∧
      (pearson_metrics 0 0 1
          (calculate_metric_arrays 1 1 (fun _ => (1 : ℝ)) fun _ => (1 : ℝ)).S_x
          (calculate_metric_arrays 1 1 (fun _ => (1 : ℝ)) fun _ => (1 : ℝ)).S_x2
          (calculate_metric_arrays 1 1 (fun _ => (1 : ℝ)) fun _ => (1 : ℝ)).S_y
          (calculate_metric_arrays 1 1 (fun _ => (1 : ℝ)) fun _ => (1 : ℝ)).S_y2
          (calculate_metric_arrays 1 1 (fun _ => (1 : ℝ)) fun _ => (1 : ℝ)).M =
        pearson 1 (fun i => (fun _ => (1 : ℝ)) (0 + i))
          (fun i => (fun _ => (1 : ℝ)) (0 + i)) ∧
      pearson_dist_metrics 0 0 1
          (calculate_metric_arrays 1 1 (fun _ => (1 : ℝ)) fun _ => (1 : ℝ)).S_x
          (calculate_metric_arrays 1 1 (fun _ => (1 : ℝ)) fun _ => (1 : ℝ)).S_x2
          (calculate_metric_arrays 1 1 (fun _ => (1 : ℝ)) fun _ => (1 : ℝ)).S_y
          (calculate_metric_arrays 1 1 (fun _ => (1 : ℝ)) fun _ => (1 : ℝ)).S_y2
          (calculate_metric_arrays 1 1 (fun _ => (1 : ℝ)) fun _ => (1 : ℝ)).M =
        pearson_dist 1 (fun i => (fun _ => (1 : ℝ)) (0 + i))
          (fun i => (fun _ => (1 : ℝ)) (0 + i))) :=
  ⟨by norm_num,
    C1_metrics_refine_direct 1 1 0 0 1 (fun _ => (1 : ℝ)) (fun _ => (1 : ℝ))
      (by norm_num) (by norm_num)⟩

/-- C2: `calculate_metric_arrays` builds `M` with row 0 and column 0 all
zero, and for `u < n`, `v < m`, with `t = |u - v|`:
`M[u+1, v+1] = M[u, v] + x[v+t]*y[v]` if `u > v`, else
`M[u+1, v+1] = M[u, v] + x[u]*y[u+t]`. -/
theorem C2_M_construction (n m : ℕ) (x y : ℕ → ℝ) :
    (∀ j, (calculate_metric_arrays n m x y).M 0 j = 0) ∧
    (∀ i, (calculate_metric_arrays n m x y).M i 0 = 0) ∧
    (∀ u v, u < n → v < m →
      (calculate_metric_arrays n m x y).M (u + 1) (v + 1) =
        (calculate_metric_arrays n m x y).M u v +
          (if u > v then x (v + ((u : ℤ) - (v : ℤ)).natAbs) * y v
           else x u * y (u + ((v : ℤ) - (u : ℤ)).natAbs))) := by
  simp only [calculate_metric_arrays]
  refine ⟨fun j => ?_, fun i => ?_, fun u v hu hv => ?_⟩
  · rw [buildM_apply]
    by_cases h : 0 ≤ n ∧ j ≤ m
    · rw [if_pos h, Mclosed_zero_left]
    · rw [if_neg h]
  · rw [buildM_apply]
    by_cases h : i ≤ n ∧ 0 ≤ m
    · rw [if_pos h, Mclosed_zero_right]
    · rw [if_neg h]
  · rw [buildM_apply, buildM_apply, if_pos ⟨hu, hv⟩,
      if_pos ⟨by omega, by omega⟩]
    show Mclosed x y (u + 1) (v + 1) = Mclosed x y u v + prodTerm x y u v
    rw [Mclosed]

/-- Witness for C2 at `n = m = 1`, `u = v = 0`, `x = [2]`, `y = [3]`. -/
theorem C2_M_construction_witness :
    0 < 1 ∧
      (calculate_metric_arrays 1 1 (fun _ => (2 : ℝ)) fun _ => (3 : ℝ)).M 1 1 =
        (calculate_metric_arrays 1 1 (fun _ => (2 : ℝ)) fun _ => (3 : ℝ)).M 0 0 +
          (if 0 > 0 then
            (fun _ => (2 : ℝ)) (0 + ((0 : ℤ) - (0 : ℤ)).natAbs) * (fun _ => (3 : ℝ)) 0
           else (fun _ => (2 : ℝ)) 0 *
            (fun _ => (3 : ℝ)) (0 + ((0 : ℤ) - (0 : ℤ)).natAbs)) :=
  ⟨by norm_num,
    (C2_M_construction 1 1 (fun _ => (2 : ℝ)) fun _ => (3 : ℝ)).2.2 0 0
      (by norm_num) (by norm_num)⟩

/-- C3: for the matrix `M` built by `calculate_metric_arrays` and any
in-range query `(u, v, l)` with `u + l ≤ n` and `v + l ≤ m` (in particular
any diagonally aligned query), `M[u+l, v+l] - M[u, v]` equals the sum of
pointwise products of the windows `x[u:u+l]` and `y[v:v+l]`. -/
theorem C3_M_window_sum (n m : ℕ) (x y : ℕ → ℝ) (u v l : ℕ)
    (hu : u + l ≤ n) (hv : v + l ≤ m) :
    (calculate_metric_arrays n m x y).M (u + l) (v + l) -
      (calculate_metric_arrays n m x y).M u v =
      ∑ i ∈ range l, x (u + i) * y (v + i) := by
  simp only [calculate_metric_arrays]
  exact buildM_window n m x y u v l hu hv

/-- Witness for C3 at `n = m = 2`, `u = v = 0`, `l = 2`,
`x = [2, 2]`, `y = [3, 3]`. -/
theorem C3_M_window_sum_witness :
    0 + 2 ≤ 2 ∧
      (calculate_metric_arrays 2 2 (fun _ => (2 : ℝ)) fun _ => (3 : ℝ)).M
          (0 + 2) (0 + 2) -
        (calculate_metric_arrays 2 2 (fun _ => (2 : ℝ)) fun _ => (3 : ℝ)).M 0 0 =
        ∑ i ∈ range 2, (fun _ => (2 : ℝ)) (0 + i) * (fun _ => (3 : ℝ)) (0 + i) :=
  ⟨by norm_num,
    C3_M_window_sum 2 2 (fun _ => (2 : ℝ)) (fun _ => (3 : ℝ)) 0 0 2
      (by norm_num) (by norm_num)⟩

/-- C10: both branches of the loop body add the same term `x[u]*y[v]`
(since `x[v+t] = x[u]` when `u > v` and `y[u+t] = y[v]` otherwise), so
`M[u+1, v+1] = M[u, v] + x[u]*y[v]` uniformly, and hence
`M[u+l, v+l] - M[u, v] = Σ_{i<l} x[u+i]*y[v+i]` for every valid
`(u, v, l)`, with no alignment restriction. -/
theorem C10_M_uniform_recurrence (n m : ℕ) (x y : ℕ → ℝ) :
    (∀ u v, prodTerm x y u v = x u * y v) ∧
    (∀ u v, u < n → v < m →
      (calculate_metric_arrays n m x y).M (u + 1) (v + 1) =
        (calculate_metric_arrays n m x y).M u v + x u * y v) ∧
    (∀ u v l, u + l ≤ n → v + l ≤ m →
      (calculate_metric_arrays n m x y).M (u + l) (v + l) -
        (calculate_metric_arrays n m x y).M u v =
        ∑ i ∈ range l, x (u + i) * y (v + i)) := by
  simp only [calculate_metric_arrays]
  refine ⟨prodTerm_eq x y, fun u v hu hv => ?_,
    fun u v l hu hv => buildM_window n m x y u v l hu hv⟩
  rw [buildM_apply, buildM_apply, if_pos ⟨hu, hv⟩,
    if_pos ⟨by omega, by omega⟩, Mclosed_succ]

/-- Witness for C10 at `n = m = 1`, `u = v = 0`, `x = [2]`, `y = [3]`. -/
theorem C10_M_uniform_recurrence_witness :
    0 < 1 ∧
      (calculate_metric_arrays 1 1 (fun _ => (2 : ℝ)) fun _ => (3 : ℝ)).M 1 1 =
        (calculate_metric_arrays 1 1 (fun _ => (2 : ℝ)) fun _ => (3 : ℝ)).M 0 0 +
          (fun _ => (2 : ℝ)) 0 * (fun _ => (3 : ℝ)) 0 :=
  ⟨by norm_num,
    (C10_M_uniform_recurrence 1 1 (fun _ => (2 : ℝ)) fun _ => (3 : ℝ)).2.1 0 0
      (by norm_num) (by norm_num)⟩

/-- Concrete non-constant sequence used by witnesses: on `n = 2`, the
sequence `0, 1` has variance `1/4`, so nonzero standard deviation. -/
lemma std_two_id_ne_zero : std 2 (fun i => (i : ℝ)) ≠ 0 := by
  have hv : var 2 (fun i => (i : ℝ)) = 1 / 4 := by
    rw [var_eq]
    simp [mean, Finset.sum_range_succ]
    norm_num
  rw [std, hv]
  exact ne_of_gt (Real.sqrt_pos.mpr (by norm_num))

/-- C5: for every sequence with nonzero standard deviation, `z_norm`
returns `(x - mean x) / std x` element-wise, and the result has mean `0`
and standard deviation `1` (exactly, in exact real arithmetic). -/
theorem C5_z_norm_normalizes (n : ℕ) (x : ℕ → ℝ) (h : std n x ≠ 0) :
    (∀ i, z_norm n x i = (x i - mean n x) / std n x) ∧
    mean n (z_norm n x) = 0 ∧
    std n (z_norm n x) = 1 := by
  have hn : (n : ℝ) ≠ 0 := cast_ne_zero_of_std_ne_zero n x h
  have hmean : mean n (z_norm n x) = 0 := by
    rw [mean, sum_znorm, zero_div]
  refine ⟨fun i => rfl, hmean, ?_⟩
  have hvar : var n (z_norm n x) = 1 := by
    rw [var_eq, hmean, sum_znorm_sq n x h]
    field_simp
  rw [std, hvar, Real.sqrt_one]

/-- Witness for C5 at `n = 2`, `x = [0, 1]`. -/
theorem C5_z_norm_normalizes_witness :
    std 2 (fun i => (i : ℝ)) ≠ 0 ∧
      ((∀ i, z_norm 2 (fun i => (i : ℝ)) i =
          ((fun i => (i : ℝ)) i - mean 2 fun i => (i : ℝ)) /
            std 2 fun i => (i : ℝ)) ∧
       mean 2 (z_norm 2 fun i => (i : ℝ)) = 0 ∧
       std 2 (z_norm 2 fun i => (i : ℝ)) = 1) :=
  ⟨std_two_id_ne_zero, C5_z_norm_normalizes 2 _ std_two_id_ne_zero⟩

/-- C6: `norm_euclidean_distance` is `(1/√n) · ‖x - y‖₂` (the Euclidean
2-norm of the difference), and on `x = [1]*10`, `y = [0]*10` it returns
exactly `1`. -/
theorem C6_norm_euclidean_distance :
    (∀ (n : ℕ) (x y : ℕ → ℝ), norm_euclidean_distance n x y =
      1 / Real.sqrt n * Real.sqrt (∑ i ∈ range n, (x i - y i) ^ 2)) ∧
    norm_euclidean_distance 10 (fun _ => (1 : ℝ)) (fun _ => (0 : ℝ)) = 1 := by
  refine ⟨fun n x y => rfl, ?_⟩
  have hsum : ∑ i ∈ range 10, ((fun _ => (1 : ℝ)) i - (fun _ => (0 : ℝ)) i) ^ 2 =
      (10 : ℝ) := by
    simp
  rw [norm_euclidean_distance, hsum]
  have h10 : Real.sqrt ((10 : ℕ) : ℝ) = Real.sqrt (10 : ℝ) := by norm_num
  rw [h10, one_div, inv_mul_cancel₀ (Real.sqrt_ne_zero'.mpr (by norm_num))]

/-- C7: `pearson` computes the mean and population standard deviation of
each sequence (divide by `m`, square root of the mean squared deviation)
and returns `(Σ(x·y) - m·μx·μy) / (m·σx·σy)`. -/
theorem C7_pearson_formula (n : ℕ) (x y : ℕ → ℝ) :
    pearson n x y =
      ((∑ i ∈ range n, x i * y i) -
          n * ((∑ i ∈ range n, x i) / n) * ((∑ i ∈ range n, y i) / n)) /
        (n *
          Real.sqrt ((∑ i ∈ range n, (x i - (∑ j ∈ range n, x j) / n) ^ 2) / n) *
          Real.sqrt ((∑ i ∈ range n, (y i - (∑ j ∈ range n, y j) / n) ^ 2) / n)) :=
  rfl

/-- C8: with both standard deviations nonzero, `pearson` lies in `[-1, 1]`
(Cauchy-Schwarz) and `pearson_dist` is nonnegative. -/
theorem C8_pearson_in_unit_interval (n : ℕ) (x y : ℕ → ℝ)
    (hx : std n x ≠ 0) (hy : std n y ≠ 0) :
    -1 ≤ pearson n x y ∧ pearson n x y ≤ 1 ∧ 0 ≤ pearson_dist n x y := by
  have hn : (n : ℝ) ≠ 0 := cast_ne_zero_of_std_ne_zero n x hx
  have hsx := std_pos_of_ne_zero n x hx
  have hsy := std_pos_of_ne_zero n y hy
  have hnpos : (0 : ℝ) < n := lt_of_le_of_ne (Nat.cast_nonneg n) (Ne.symm hn)
  have hp : pearson n x y =
      (∑ i ∈ range n, (x i - mean n x) * (y i - mean n y)) /
        (n * std n x * std n y) := by
    rw [pearson, sum_dev_mul]
  have hCS : (∑ i ∈ range n, (x i - mean n x) * (y i - mean n y)) ^ 2 ≤
      (n * std n x * std n y) ^ 2 := by
    have h1 := Finset.sum_mul_sq_le_sq_mul_sq (range n)
      (fun i => x i - mean n x) (fun i => y i - mean n y)
    rw [sum_sq_dev_eq_n_var n x hn, sum_sq_dev_eq_n_var n y
      (cast_ne_zero_of_std_ne_zero n y hy)] at h1
    calc (∑ i ∈ range n, (x i - mean n x) * (y i - mean n y)) ^ 2
        ≤ (n : ℝ) * var n x * ((n : ℝ) * var n y) := h1
      _ = (n * std n x * std n y) ^ 2 := by
          rw [← sq_std n x, ← sq_std n y]; ring
  have hsq : pearson n x y ^ 2 ≤ 1 := by
    rw [hp, div_pow, div_le_one (by positivity)]
    exact hCS
  obtain ⟨h1, h2⟩ := abs_le.mp ((sq_le_one_iff_abs_le_one _).mp hsq)
  exact ⟨h1, h2, Real.sqrt_nonneg _⟩

/-- Witness for C8 at `n = 2`, `x = y = [0, 1]`. -/
theorem C8_pearson_in_unit_interval_witness :
    std 2 (fun i => (i : ℝ)) ≠ 0 ∧
      (-1 ≤ pearson 2 (fun i => (i : ℝ)) (fun i => (i : ℝ)) ∧
       pearson 2 (fun i => (i : ℝ)) (fun i => (i : ℝ)) ≤ 1 ∧
       0 ≤ pearson_dist 2 (fun i => (i : ℝ)) fun i => (i : ℝ)) :=
  ⟨std_two_id_ne_zero,
    C8_pearson_in_unit_interval 2 _ _ std_two_id_ne_zero std_two_id_ne_zero⟩

/-- C4: for equal-length sequences with nonzero standard deviations, the
length-normalized Euclidean distance of the z-normalized sequences equals
`pearson_dist(x, y) = √(2·(1 - pearson(x, y)))` (exactly, in exact real
arithmetic). -/
theorem C4_norm_euclid_znorm_eq_pearson_dist (n : ℕ) (x y : ℕ → ℝ)
    (hx : std n x ≠ 0) (hy : std n y ≠ 0) :
    norm_euclidean_distance n (z_norm n x) (z_norm n y) =
      pearson_dist n x y := by
  have hn : (n : ℝ) ≠ 0 := cast_ne_zero_of_std_ne_zero n x hx
  have hnpos : (0 : ℝ) < n := lt_of_le_of_ne (Nat.cast_nonneg n) (Ne.symm hn)
  have hA : ∑ i ∈ range n, (z_norm n x i - z_norm n y i) ^ 2 =
      n * (2 * (1 - pearson n x y)) := by
    have hexp : ∀ i ∈ range n, (z_norm n x i - z_norm n y i) ^ 2 =
        z_norm n x i ^ 2 - 2 * (z_norm n x i * z_norm n y i) +
          z_norm n y i ^ 2 := by
      intro i _; ring
    rw [Finset.sum_congr rfl hexp, Finset.sum_add_distrib,
      Finset.sum_sub_distrib, ← Finset.mul_sum, sum_znorm_sq n x hx,
      sum_znorm_sq n y hy, sum_znorm_mul n x y hx hy]
    ring
  rw [norm_euclidean_distance, hA, pearson_dist,
    Real.sqrt_mul (le_of_lt hnpos), one_div, ← mul_assoc,
    inv_mul_cancel₀ (Real.sqrt_ne_zero'.mpr hnpos), one_mul]

/-- Witness for C4 at `n = 2`, `x = y = [0, 1]`. -/
theorem C4_norm_euclid_znorm_eq_pearson_dist_witness :
    std 2 (fun i => (i : ℝ)) ≠ 0 ∧
      norm_euclidean_distance 2 (z_norm 2 fun i => (i : ℝ))
          (z_norm 2 fun i => (i : ℝ)) =
        pearson_dist 2 (fun i => (i : ℝ)) fun i => (i : ℝ) :=
  ⟨std_two_id_ne_zero,
    C4_norm_euclid_znorm_eq_pearson_dist 2 _ _ std_two_id_ne_zero
      std_two_id_ne_zero⟩

end

end PyShapelets
